import Mathlib

/-!
Verification of the mirdata dataset/track indexing and validation framework.

The development shallowly embeds the core of the repository:

* `mirdata/dataset.py` (the `Dataset` class: `__getitem__`, `index`,
  `metadata`, `load`, `track_ids`, `validate`);
* `mirdata/salami.py` (`load_track` unknown-id guard);
* the contracts of the modules whose files are not part of the
  source tree (`mirdata/utils.py`, `mirdata/track.py`,
  `mirdata/track2.py`, `mirdata/download_utils.py`), which are
  modelled from the specification where a claim needs them.

Python dictionaries are embedded as association lists (insertion order is
observable in Python and matters for traversal-order claims).  The JSON
index stores each file-role entry as a two-element list
`[relative_path, checksum_or_null]`; because `Dataset.__getitem__` takes a
*shallow* `dict.copy()` of a track's entry and then assigns into the inner
lists, those inner lists are shared between the copy and the cached index.
To make that aliasing expressible, the inner `[path, checksum]` lists are
embedded as cells in an explicit heap (`List Cell`, a cell id being a
position), and both the cached index structure and each `Track2` hold cell
ids rather than values.  All other structure is immutable and is embedded
directly.

The md5 content hash and the network are external collaborators; they
enter every definition as explicit function parameters
(`hash : String → String`, `net : String → Option String`).
-/

/-! ### Association lists (Python `dict` embedding)

`assocLookup` is `d[k]` returning `none` for Python's `KeyError` case;
`assocSet` is `d[k] = v` (replace the existing binding in place, keeping
its position, else append — Python dicts preserve insertion order). -/


def assocLookup {β : Type} (k : String) : List (String × β) → Option β
  | [] => none
  | (k₂, v) :: rest => if k₂ = k then some v else assocLookup k rest

def assocSet {β : Type} (l : List (String × β)) (k : String) (v : β) :
    List (String × β) :=
  match l with
  | [] => [(k, v)]
  | (k₂, v₂) :: rest =>
      if k₂ = k then (k, v) :: rest else (k₂, v₂) :: assocSet rest k v

/-! ### POSIX path joining

`os.path.join(a, b)` for two components: if `b` is absolute (begins with
a slash) it discards `a`; otherwise it inserts a single separator unless
`a` is empty or already ends with one. -/

def pathJoin (a b : String) : String :=
  if b.data.head? = some '/' then b
  else if a = "" ∨ a.data.getLast? = some '/' then a ++ b
  else a ++ "/" ++ b

/-! ### MultiTrack mixing (`mirdata/track.py`, not in the source tree) -/

/-- Modelled from the spec: `mirdata/track.py` is absent from the source
tree (only `tests/test_track.py` exercises it).  Per the spec,
`MultiTrack.get_target(track_ids, weights=None)` sums the referenced
tracks' equal-length audio signals, optionally weighted, with default
weight `1.0` per track; a length mismatch fails with `ShapeMismatch`.
Signals are embedded as `List ℚ`; `tracks` is the MultiTrack's mapping
from track key to that track's audio signal. -/
def getTarget (tracks : List (String × List ℚ)) (ids : List String)
    (weights : Option (List ℚ)) : Except String (List ℚ) :=
  let ws := match weights with
    | some w => w
    | none => List.replicate ids.length 1
  match gatherSignals tracks ids with
  | none => .error "KeyError"
  | some sigs =>
      match sigs with
      | [] => .error "no tracks selected"
      | s₀ :: _ =>
          if (sigs.all fun s => s.length = s₀.length) ∧ ws.length = sigs.length
          then .ok (mixSignals s₀.length (ws.zip sigs))
          else .error "ShapeMismatch"
where
  gatherSignals (tracks : List (String × List ℚ)) :
      List String → Option (List (List ℚ))
    | [] => some []
    | i :: rest =>
        match assocLookup i tracks, gatherSignals tracks rest with
        | some s, some ss => some (s :: ss)
        | _, _ => none
  addScaled (acc : List ℚ) (w : ℚ) (s : List ℚ) : List ℚ :=
    List.zipWith (fun a x => a + w * x) acc s
  mixSignals (n : Nat) (pairs : List (ℚ × List ℚ)) : List ℚ :=
    pairs.foldl (fun acc p => addScaled acc p.1 p.2) (List.replicate n 0)

/-! ### Remote fetching (`mirdata/download_utils.py`, not in the source
tree) -/

/-- Remote descriptor: `RemoteFileMetadata(filename, url, checksum)` as
declared by the loaders in `mirdata/salami.py` and `mirdata/tinysol.py`
(the optional `destination_dir` field does not participate in the claims
and is omitted). -/
structure RemoteFileMetadata where
  filename : String
  url : String
  checksum : String
deriving DecidableEq

/-- Failure kinds of the fetcher: a network failure (`IOError` in the
tests) is distinct from a post-download checksum mismatch. -/
inductive DownloadErr where
  | ioError : DownloadErr
  | checksumMismatch : DownloadErr
deriving DecidableEq

/-- Modelled from the spec: `download_utils.download_from_remote` is
absent from the source tree (only its tests and callers are).  Per the
spec, if the destination already holds a file whose checksum matches the
remote descriptor and `force_overwrite` is false the call is a no-op;
otherwise the resource is fetched, verified, and only written (kept) when
the computed checksum matches, a mismatch failing without leaving the
partial file in place.  The filesystem is an association list from path
to content, `net` maps a url to its content (`none` = network failure),
and the return value carries the local path, the resulting filesystem
and the number of network transfers performed. -/
def downloadFetch (hash : String → String) (net : String → Option String)
    (remote : RemoteFileMetadata) (destination : String)
    (fs : List (String × String)) :
    Except DownloadErr (String × List (String × String) × Nat) :=
  match net remote.url with
  | none => .error .ioError
  | some data =>
      if hash data = remote.checksum
      then .ok (pathJoin destination remote.filename,
        assocSet fs (pathJoin destination remote.filename) data, 1)
      else .error .checksumMismatch

def downloadFromRemote (hash : String → String) (net : String → Option String)
    (remote : RemoteFileMetadata) (destination : String)
    (forceOverwrite : Bool) (fs : List (String × String)) :
    Except DownloadErr (String × List (String × String) × Nat) :=
  match assocLookup (pathJoin destination remote.filename) fs with
  | some content =>
      if hash content = remote.checksum ∧ forceOverwrite = false
      then .ok (pathJoin destination remote.filename, fs, 0)
      else downloadFetch hash net remote destination fs
  | none => downloadFetch hash net remote destination fs

/-! ### The `Dataset` model (`mirdata/dataset.py`)

The JSON index is `{"t1": {"audio": ["a.wav", "abc123"], ...}, ...}`:
per track a dict from file role to a two-element list
`[relative_path, checksum_or_null]`.  Those inner lists are mutable
Python objects, so they live in an explicit heap; `RawIndex` is the
plain (heap-free) value as read from disk. -/

abbrev Cell := String × Option String

abbrev RawRoles := List (String × Cell)

abbrev RawIndex := List (String × RawRoles)

instance : DecidableEq RawIndex := inferInstance

/-- A value of the per-dataset metadata dict.  `Dataset.metadata` maps
each track id to a dict of fields and additionally maps the literal key
`"data_home"` to the dataset root string. -/
inductive MetaEntry where
  | home : String → MetaEntry
  | fields : List (String × Option String) → MetaEntry
deriving DecidableEq

abbrev Metadata := List (String × MetaEntry)

/-- Python exceptions raised by the embedded fragment of `dataset.py`:
`KeyError` from a dict lookup (carrying the missing key) and the
`TypeError` raised by `metadata_index['data_home'] = ...` when the
per-dataset `load_metadata` returned `None`. -/
inductive PyErr where
  | keyError : String → PyErr
  | typeError : PyErr
deriving DecidableEq

/-- The observable state of one `Dataset` object: `data_home`, the
on-disk index JSON (`rawIndex`), the per-dataset metadata loader
(`module.load_metadata`, returning `none` when its backing file is
absent, as the loaders in `salami.py`/`tinysol.py`/`medleydb_pitch.py`
do), the heap of `[path, checksum]` cells, and the two
`utils.cached_property` caches (`index`, `metadata`). -/
structure DatasetState where
  dataHome : String
  rawIndex : RawIndex
  loadMeta : String → Option Metadata
  heap : List Cell
  indexCache : Option (List (String × List (String × Nat)))
  metadataCache : Option Metadata

/-- Allocate one track's role dict: each `[path, checksum]` list becomes
a fresh consecutive heap cell starting at `off`. -/
def allocRoles (off : Nat) : RawRoles → List (String × Nat)
  | [] => []
  | (role, _) :: rest => (role, off) :: allocRoles (off + 1) rest

/-- The cells of one track's role dict, in declaration order. -/
def rolesCells (roles : RawRoles) : List Cell := roles.map Prod.snd

/-- Allocate the whole index: track after track, left to right. -/
def allocTracks (off : Nat) : RawIndex → List (String × List (String × Nat))
  | [] => []
  | (tid, roles) :: rest =>
      (tid, allocRoles off roles) :: allocTracks (off + roles.length) rest

/-- The heap produced by loading an index from JSON. -/
def heapOfRaw : RawIndex → List Cell
  | [] => []
  | (_, roles) :: rest => rolesCells roles ++ heapOfRaw rest

def heapGet (h : List Cell) (cid : Nat) : Cell := (h.get? cid).getD ("", none)

/-- `cell[0] = p` — overwrite the path component of a heap cell,
keeping its checksum; out-of-range ids leave the heap unchanged (they
never occur for allocated indices). -/
def setCellPath (h : List Cell) (cid : Nat) (p : String) : List Cell :=
  match h.get? cid with
  | some (_, chk) => h.set cid (p, chk)
  | none => h

/-- The loop body of `Dataset.__getitem__` (dataset.py:29-32):
`for track_key in self.index[track_id]:
   track_index[track_key][0] = os.path.join(self.data_home,
   track_index[track_key][0])`.
`track_index` is a *shallow* `dict.copy()`, so the assignments write
through the shared cells of the cached index. -/
def joinCells (dataHome : String) (h : List Cell) :
    List (String × Nat) → List Cell
  | [] => h
  | (_, cid) :: rest =>
      joinCells dataHome
        (setCellPath h cid (pathJoin dataHome (heapGet h cid).1)) rest

/-- Modelled from the spec: `mirdata/track2.py` is absent from the
source tree.  Per the spec a Track holds its metadata slice and the
role → resolved-path manifest (here: the shared cells); derived
properties are lazy, so construction stores these and performs no file
reads.  The `load_track` callable that `dataset.py` also passes to
`Track2` feeds only those lazy properties and plays no part in any
claim, so it is not carried. -/
structure Track2 where
  meta : MetaEntry
  trackIndex : List (String × Nat)
deriving DecidableEq

/-- A Track's resolved path for one file role (reads the shared cell). -/
def trackPath (h : List Cell) (t : Track2) (role : String) : Option String :=
  (assocLookup role t.trackIndex).map (fun cid => (heapGet h cid).1)

/-- `Dataset.metadata` (dataset.py:51-55), a `utils.cached_property`:
on first access run the per-dataset `load_metadata(data_home)`, add the
`data_home` key, cache the result; afterwards return the cache.  The
result triple carries the value, the successor state, and how many
loader invocations (file reads) the access performed. -/
def metadataAccess (ds : DatasetState) :
    Except PyErr (Metadata × DatasetState × Nat) :=
  match ds.metadataCache with
  | some m => .ok (m, ds, 0)
  | none =>
      match ds.loadMeta ds.dataHome with
      | none => .error .typeError
      | some lm =>
          let m := assocSet lm "data_home" (.home ds.dataHome)
          .ok (m, { ds with metadataCache := some m }, 1)

/-- `Dataset.index` (dataset.py:41-43), a `utils.cached_property` over
`load_index` (dataset.py:86-88): on first access parse the JSON index
(allocating its inner lists on the heap) and cache it; afterwards
return the cache. -/
def indexAccess (ds : DatasetState) :
    (List (String × List (String × Nat))) × DatasetState × Nat :=
  match ds.indexCache with
  | some idx => (idx, ds, 0)
  | none =>
      let idx := allocTracks 0 ds.rawIndex
      (idx, { ds with indexCache := some idx, heap := heapOfRaw ds.rawIndex },
        1)

/-- `Dataset.__getitem__` (dataset.py:26-33): look up the track's
metadata slice (a `KeyError` when absent), take the shallow copy of the
track's index entry (a `KeyError` when the id is not in the index),
rewrite each role's path in place to `join(data_home, path)`, and
construct the `Track2`.  The `Nat` counts loader invocations. -/
def getItem (ds : DatasetState) (tid : String) :
    Except PyErr (Track2 × DatasetState × Nat) :=
  match metadataAccess ds with
  | .error e => .error e
  | .ok (md, ds₁, r₁) =>
      match assocLookup tid md with
      | none => .error (.keyError tid)
      | some tmd =>
          match indexAccess ds₁ with
          | (idx, ds₂, r₂) =>
              match assocLookup tid idx with
              | none => .error (.keyError tid)
              | some roles =>
                  .ok (⟨tmd, roles⟩,
                    { ds₂ with heap := joinCells ds₂.dataHome ds₂.heap roles },
                    r₁ + r₂)

/-- The loaded index manifest as observable data: dereference every cell
of the cached index (`none` when the index was never loaded). -/
def manifestOf (ds : DatasetState) : Option RawIndex :=
  ds.indexCache.map fun idx =>
    idx.map fun e => (e.1, e.2.map fun rc => (rc.1, heapGet ds.heap rc.2))

/-- A dataset as constructed by `Dataset.__init__`: nothing cached yet. -/
def freshDS (dataHome : String) (raw : RawIndex)
    (loadMeta : String → Option Metadata) : DatasetState :=
  ⟨dataHome, raw, loadMeta, [], none, none⟩

/-- A dataset whose index cache has been populated (the state after the
first `Dataset.index` access). -/
def loadedDS (dataHome : String) (raw : RawIndex)
    (loadMeta : String → Option Metadata) : DatasetState :=
  ⟨dataHome, raw, loadMeta, heapOfRaw raw, some (allocTracks 0 raw), none⟩

/-! ### A concrete one-track dataset (the spec's example scenario) -/

def exRaw : RawIndex := [("t1", [("audio", ("a.wav", some "abc123"))])]

def exLM : String → Option Metadata := fun _ => some [("t1", .fields [])]

def exDS : DatasetState := loadedDS "/d" exRaw exLM

/-- The cached manifest observed after `dataset[track_id]`, or `none`
when the call raised. -/
def manifestAfterGetItem (ds : DatasetState) (tid : String) :
    Option (Option RawIndex) :=
  match getItem ds tid with
  | .ok (_, ds₂, _) => some (manifestOf ds₂)
  | .error _ => none

/-- The relation between an allocated role dict and its raw value:
keys agree position-wise and every cell dereferences to the raw
`[path, checksum]` pair. -/
abbrev cellsMatch (h : List Cell) (rc : List (String × Nat))
    (roles : RawRoles) : Prop :=
  List.Forall₂ (fun a b => a.1 = b.1 ∧ h.get? a.2 = some b.2) rc roles

/-- A Track's resolved path for one role, observed through the whole
`dataset.track(tid)` call (`none` when the lookup raised). -/
def getItemPath (ds : DatasetState) (tid role : String) : Option String :=
  match getItem ds tid with
  | .ok (t, ds₂, _) => trackPath ds₂.heap t role
  | .error _ => none

/-- The track ids of the dataset's index as `Dataset.__getitem__` sees
them (from the cache, or from the index file on first access). -/
def indexKeys (ds : DatasetState) : List String :=
  ((indexAccess ds).1).map Prod.fst

/-- The guard opening `salami.load_track` (salami.py:180-181):
`if track_id not in SALAMI_INDEX.keys(): raise ValueError(...)` — the
function's first statement, so an unknown id raises before any track
data is touched.  The result is the raised `ValueError` message, `none`
when the guard passes. -/
def salamiLoadTrackError (index : RawIndex) (tid : String) : Option String :=
  if (assocLookup tid index).isSome then none
  else some (tid ++ " is not a valid track ID in Salami")

/-! ### `Dataset.load` (dataset.py:80-84) -/

/-- The loop of `Dataset.load`: `for track_id in self.index:
tracks[track_id] = self[track_id]` — one `__getitem__` per id, results
collected in iteration order.  The `Nat` sums the loader invocations
(file reads) the constructions performed. -/
def loadGo (ds : DatasetState) :
    List String → Except PyErr (List (String × Track2) × DatasetState × Nat)
  | [] => .ok ([], ds, 0)
  | tid :: rest =>
      match getItem ds tid with
      | .error e => .error e
      | .ok (t, ds₂, r) =>
          match loadGo ds₂ rest with
          | .error e => .error e
          | .ok (ts, ds₃, rs) => .ok ((tid, t) :: ts, ds₃, r + rs)

/-- `Dataset.load` (dataset.py:80-84): iterate over the index's track
ids (`tqdm` only displays progress and does not alter results) and
build every track eagerly. -/
def datasetLoad (ds : DatasetState) :
    Except PyErr (List (String × Track2) × DatasetState × Nat) :=
  match indexAccess ds with
  | (idx, ds₁, r₀) =>
      match loadGo ds₁ (idx.map Prod.fst) with
      | .error e => .error e
      | .ok (ts, ds₂, r) => .ok (ts, ds₂, r₀ + r)

/-- The number of loader invocations (file reads) performed by
`Dataset.load`, `none` when the call raised. -/
def loadReads (ds : DatasetState) : Option Nat :=
  match datasetLoad ds with
  | .ok (_, _, n) => some n
  | .error _ => none

/-! ### Validation (`Dataset.validate`, dataset.py:93-100; the per-track
check lives in the absent `mirdata/track2.py` / `mirdata/utils.py`) -/

/-- Validation outcome: the `(missing_files, invalid_checksums)` pair the
code returns, plus — as instrumentation justified by the spec's
presence-only-check policy — the list of files whose content was
actually hashed. -/
structure VRes where
  missing : List String
  invalid : List String
  hashed : List String
deriving DecidableEq

def vappend (a b : VRes) : VRes :=
  ⟨a.missing ++ b.missing, a.invalid ++ b.invalid, a.hashed ++ b.hashed⟩

def vconcat : List VRes → VRes
  | [] => ⟨[], [], []⟩
  | v :: rest => vappend v (vconcat rest)

/-- Modelled from the spec: the check of one `(path, checksum)` pair
(`mirdata/utils.py` is absent from the source tree; only
`tests/test_utils.py` exercises its `validator`).  Per the spec: check
existence first (missing → record in the missing list and skip the
checksum entirely), then — only for an expected checksum that is not
`None` — hash the content and compare (mismatch → record in the invalid
list). -/
def validateEntry (hash : String → String) (fs : List (String × String))
    (cell : Cell) : VRes :=
  match assocLookup cell.1 fs with
  | none => ⟨[cell.1], [], []⟩
  | some content =>
      match cell.2 with
      | none => ⟨[], [], []⟩
      | some c =>
          if hash content = c then ⟨[], [], [cell.1]⟩
          else ⟨[], [cell.1], [cell.1]⟩

/-- Modelled from the spec: `Track2.validate` (`mirdata/track2.py` is
absent from the source tree) — validate the track's manifest role by
role, in declared order, through the shared heap cells. -/
def track2Validate (hash : String → String) (fs : List (String × String))
    (h : List Cell) : List (String × Nat) → VRes
  | [] => ⟨[], [], []⟩
  | (_, cid) :: rest =>
      vappend (validateEntry hash fs (heapGet h cid))
        (track2Validate hash fs h rest)

/-- The loop of `Dataset.validate` (dataset.py:96-99): for each track id
construct the track via `self[track_id]` and run its validation,
concatenating the missing/invalid lists in traversal order. -/
def validateGo (hash : String → String) (fs : List (String × String))
    (ds : DatasetState) : List String → Except PyErr (VRes × DatasetState)
  | [] => .ok (⟨[], [], []⟩, ds)
  | tid :: rest =>
      match getItem ds tid with
      | .error e => .error e
      | .ok (t, ds₂, _) =>
          match validateGo hash fs ds₂ rest with
          | .error e => .error e
          | .ok (r₂, ds₃) =>
              .ok (vappend (track2Validate hash fs ds₂.heap t.trackIndex) r₂,
                ds₃)

/-- `Dataset.validate` (dataset.py:93-100): iterate `self.track_ids()`
(the keys of the cached index, loading it on first access) and
accumulate each track's validation result. -/
def datasetValidate (hash : String → String) (fs : List (String × String))
    (ds : DatasetState) : Except PyErr (VRes × DatasetState) :=
  match indexAccess ds with
  | (idx, ds₁, _) => validateGo hash fs ds₁ (idx.map Prod.fst)

/-- The spec-side declarative view: every `(track, role, path, checksum)`
triple of the index, with the path joined against `data_home`, in track
id order then role order as declared. -/
def specTriples (dh : String) (raw : RawIndex) : List Cell :=
  raw.bind fun e => e.2.map fun r => (pathJoin dh r.2.1, r.2.2)

/-- The spec-side missing list: the paths of the triples whose file does
not exist, in traversal order. -/
def specMissing (fs : List (String × String)) (ts : List Cell) :
    List String :=
  (ts.filter fun t => (assocLookup t.1 fs).isNone).map Prod.fst

/-- The spec-side invalid list: the paths of the triples whose file
exists, carries a non-`None` expected checksum, and hashes to a
different value, in traversal order. -/
def specInvalid (hash : String → String) (fs : List (String × String))
    (ts : List Cell) : List String :=
  ts.filterMap fun t =>
    match assocLookup t.1 fs, t.2 with
    | some content, some c => if hash content = c then none else some t.1
    | _, _ => none

/-- The spec-side hashed list: content is hashed exactly for the triples
whose file exists and whose expected checksum is not `None`. -/
def specHashed (fs : List (String × String)) (ts : List Cell) :
    List String :=
  ts.filterMap fun t =>
    match assocLookup t.1 fs, t.2 with
    | some _, some _ => some t.1
    | _, _ => none

/-- The per-track spec-side result. -/
def trackSpecRes (hash : String → String) (fs : List (String × String))
    (dh : String) (roles : RawRoles) : VRes :=
  vconcat (roles.map fun r => validateEntry hash fs (pathJoin dh r.2.1, r.2.2))

/-- The exact result of `Dataset.validate`, `none` when it raised. -/
def validateOutcome (hash : String → String) (fs : List (String × String))
    (ds : DatasetState) : Option VRes :=
  match datasetValidate hash fs ds with
  | .ok (res, _) => some res
  | .error _ => none

/-- The exception raised by `Dataset.validate`, `none` when it
returned normally. -/
def validateError (hash : String → String) (fs : List (String × String))
    (ds : DatasetState) : Option PyErr :=
  match datasetValidate hash fs ds with
  | .ok _ => none
  | .error e => some e

/-! ### C10: the `data_home` key of the metadata mapping -/

/-- The key list of the metadata mapping after its first computation,
`none` when the computation raised. -/
def metadataKeysAfter (ds : DatasetState) : Option (List String) :=
  match metadataAccess ds with
  | .ok (m, _, _) => some (m.map Prod.fst)
  | .error _ => none

/-! ### C6: the memoizing cached-property mechanism -/

/-- Modelled from the spec: `utils.cached_property` (`mirdata/utils.py`
is absent from the source tree; `dataset.py` applies it to `index` and
`metadata`, and every cached Track property uses the same mechanism).
Per the spec it is a memoizing accessor holding an optional computed
value plus the loader: `get` computes-and-stores on the first call and
afterwards returns the stored value.  `env` is the loader's view of the
outside world (the filesystem) at access time; the `Nat` counts loader
invocations. -/
def cpAccess {σ α : Type} (loader : σ → α) (env : σ) (cache : Option α) :
    α × Option α × Nat :=
  match cache with
  | some v => (v, some v, 0)
  | none => (loader env, some (loader env), 1)

/-- A sequence of accesses, each with its own (possibly changed) view of
the world, threading the cache; returns all values, the final cache and
the total number of loader invocations. -/
def cpRun {σ α : Type} (loader : σ → α) :
    List σ → Option α → List α × Option α × Nat
  | [], c => ([], c, 0)
  | e :: es, c =>
      match cpAccess loader e c with
      | (v, c₂, k) =>
          match cpRun loader es c₂ with
          | (vs, c₃, ks) => (v :: vs, c₃, k + ks)

/-! ### Theorems -/

theorem assocLookup_eq_none {β : Type} {k : String} {l : List (String × β)}
    (h : k ∉ l.map Prod.fst) : assocLookup k l = none := by
  induction l with
  | nil => rfl
  | cons hd tl ih =>
      obtain ⟨k₂, v₂⟩ := hd
      simp only [List.map_cons, List.mem_cons] at h
      push_neg at h
      have hne : k₂ ≠ k := fun hc => h.1 hc.symm
      simp only [assocLookup, if_neg hne]
      exact ih h.2

theorem assocLookup_isSome_of_mem {β : Type} {k : String}
    {l : List (String × β)} (h : k ∈ l.map Prod.fst) :
    (assocLookup k l).isSome := by
  induction l with
  | nil => simp at h
  | cons hd tl ih =>
      simp only [List.map_cons, List.mem_cons] at h
      by_cases hk : hd.1 = k
      · simp [assocLookup, hk]
      · rcases h with h | h
        · exact absurd h.symm hk
        · simpa [assocLookup, hk] using ih h

theorem assocLookup_assocSet_self {β : Type} (l : List (String × β))
    (k : String) (v : β) : assocLookup k (assocSet l k v) = some v := by
  induction l with
  | nil => simp [assocSet, assocLookup]
  | cons hd tl ih =>
      by_cases hk : hd.1 = k
      · simp [assocSet, assocLookup, hk]
      · simpa [assocSet, assocLookup, hk] using ih

theorem assocSet_of_not_mem {β : Type} {l : List (String × β)} {k : String}
    (v : β) (h : k ∉ l.map Prod.fst) : assocSet l k v = l ++ [(k, v)] := by
  induction l with
  | nil => rfl
  | cons hd tl ih =>
      obtain ⟨k₂, v₂⟩ := hd
      simp only [List.map_cons, List.mem_cons] at h
      push_neg at h
      have hne : k₂ ≠ k := fun hc => h.1 hc.symm
      simp only [assocSet, if_neg hne, List.cons_append, List.cons.injEq,
        true_and]
      exact ih h.2

example : pathJoin "/d" "a.wav" = "/d/a.wav" := by decide

example : pathJoin "/d" "/d/a.wav" = "/d/a.wav" := by decide

example : pathJoin "" "a.wav" = "a.wav" := by decide

theorem zipWith_replicate_left {f : ℚ → ℚ → ℚ} {a : ℚ} :
    ∀ (s : List ℚ) (n : Nat), n = s.length →
      List.zipWith f (List.replicate n a) s = s.map (fun x => f a x) := by
  intro s
  induction s with
  | nil => intro n _; simp
  | cons x xs ih =>
      intro n hn
      subst hn
      simp only [List.length_cons, List.replicate_succ, List.zipWith_cons_cons,
        List.map_cons, List.cons.injEq, true_and]
      exact ih xs.length rfl

theorem addScaled_zero_left {w : ℚ} :
    ∀ (s : List ℚ) (n : Nat), n = s.length →
      getTarget.addScaled (List.replicate n 0) w s = s.map (fun x => w * x) := by
  intro s n hn
  unfold getTarget.addScaled
  rw [zipWith_replicate_left s n hn]
  simp

theorem addScaled_map {w₁ w₂ : ℚ} :
    ∀ (s t : List ℚ), s.length = t.length →
      getTarget.addScaled (s.map fun x => w₁ * x) w₂ t
        = List.zipWith (fun x y => w₁ * x + w₂ * y) s t := by
  intro s
  induction s with
  | nil => intro t _; simp [getTarget.addScaled]
  | cons x xs ih =>
      intro t hlen
      cases t with
      | nil => simp at hlen
      | cons y ys =>
          simp only [List.length_cons, Nat.succ.injEq] at hlen
          simp only [List.map_cons, getTarget.addScaled,
            List.zipWith_cons_cons]
          exact congrArg _ (ih ys hlen)

theorem zipWith_replicate_one_half :
    ∀ (n : Nat),
      List.zipWith (fun x y => (1 / 2 : ℚ) * x + (1 / 2 : ℚ) * y)
        (List.replicate n 1) (List.replicate n 1) = List.replicate n 1 := by
  intro n
  induction n with
  | zero => rfl
  | succ m ih =>
      simp only [List.replicate_succ, List.zipWith_cons_cons, ih,
        List.cons.injEq, and_true]
      norm_num

/-- C2: `MultiTrack.get_target(track_ids, weights)` returns the weighted
sum of the referenced tracks' equal-length signals; omitting `weights`
is the same as passing weight `1.0` per track; in particular two
equal-length constant signals of value `1.0` mixed with weights
`[0.5, 0.5]` give the constant signal `1.0`. -/
theorem getTarget_weighted_sum :
    (∀ (tracks : List (String × List ℚ)) (ids : List String),
        getTarget tracks ids none
          = getTarget tracks ids (some (List.replicate ids.length 1)))
    ∧ (∀ (a b : String) (s t : List ℚ) (w₁ w₂ : ℚ),
        a ≠ b → s.length = t.length →
          getTarget [(a, s), (b, t)] [a, b] (some [w₁, w₂])
            = .ok (List.zipWith (fun x y => w₁ * x + w₂ * y) s t))
    ∧ (∀ (n : Nat),
        getTarget [("a", List.replicate n 1), ("b", List.replicate n 1)]
          ["a", "b"] (some [1 / 2, 1 / 2]) = .ok (List.replicate n 1)) := by
  have hmain : ∀ (a b : String) (s t : List ℚ) (w₁ w₂ : ℚ),
      a ≠ b → s.length = t.length →
        getTarget [(a, s), (b, t)] [a, b] (some [w₁, w₂])
          = .ok (List.zipWith (fun x y => w₁ * x + w₂ * y) s t) := by
    intro a b s t w₁ w₂ hab hlen
    simp only [getTarget, getTarget.gatherSignals, assocLookup, if_pos rfl,
      if_neg hab]
    simp only [hlen, List.all_cons, List.all_nil, decide_True, Bool.and_true,
      Bool.and_self, and_self, ite_true]
    simp only [getTarget.mixSignals, List.zip_cons_cons, List.zip_nil_right,
      List.foldl_cons, List.foldl_nil]
    rw [addScaled_zero_left s t.length hlen.symm, addScaled_map s t hlen]
    simp
  refine ⟨?_, hmain, ?_⟩
  · intro tracks ids
    rfl
  · intro n
    rw [hmain "a" "b" (List.replicate n 1) (List.replicate n 1) (1 / 2) (1 / 2)
      (by decide) (by simp)]
    rw [zipWith_replicate_one_half n]

/-- C2 witness: the general theorem applied at two concrete constant
signals of length three. -/
theorem getTarget_weighted_sum_witness :
    ("a" : String) ≠ "b"
    ∧ getTarget [("a", [1, 1, 1]), ("b", [1, 1, 1])] ["a", "b"]
        (some [1 / 2, 1 / 2]) = .ok [1, 1, 1] := by
  refine ⟨by decide, ?_⟩
  rw [getTarget_weighted_sum.2.1 "a" "b" [1, 1, 1] [1, 1, 1] (1 / 2) (1 / 2)
    (by decide) rfl]
  norm_num

theorem downloadFetch_ok (hash : String → String)
    (net : String → Option String) (remote : RemoteFileMetadata)
    (destination : String) (fs fs₂ : List (String × String)) (p : String)
    (k : Nat) (h : downloadFetch hash net remote destination fs
      = .ok (p, fs₂, k)) :
    p = pathJoin destination remote.filename
    ∧ ∃ c, assocLookup (pathJoin destination remote.filename) fs₂ = some c
        ∧ hash c = remote.checksum := by
  unfold downloadFetch at h
  split at h
  · exact absurd h (by simp)
  · rename_i data hnet
    split at h
    · rename_i hd
      cases h
      exact ⟨rfl, data, assocLookup_assocSet_self fs _ data, hd⟩
    · exact absurd h (by simp)

/-- C4: `download` is idempotent — after a successful call with
`force_overwrite = false`, a second call returns the same local path,
performs no network transfer, and leaves the filesystem (hence any
content extracted from it) byte-identical. -/
theorem downloadFromRemote_idempotent (hash : String → String)
    (net : String → Option String) (remote : RemoteFileMetadata)
    (destination : String) (fs fs₂ : List (String × String)) (p : String)
    (k : Nat)
    (h : downloadFromRemote hash net remote destination false fs
      = .ok (p, fs₂, k)) :
    downloadFromRemote hash net remote destination false fs₂
      = .ok (p, fs₂, 0) := by
  have hpost : p = pathJoin destination remote.filename
      ∧ ∃ c, assocLookup (pathJoin destination remote.filename) fs₂ = some c
        ∧ hash c = remote.checksum := by
    unfold downloadFromRemote at h
    split at h
    · rename_i content hfs
      split at h
      · rename_i hc
        cases h
        exact ⟨rfl, content, hfs, hc.1⟩
      · exact downloadFetch_ok hash net remote destination fs fs₂ p k h
    · exact downloadFetch_ok hash net remote destination fs fs₂ p k h
  obtain ⟨hp, c, hlook, hc⟩ := hpost
  unfold downloadFromRemote
  rw [hlook]
  simp [hc, hp]

/-- C4 witness: idempotence at a concrete one-file state (the transparent
hash used only to instantiate the external digest parameter). -/
theorem downloadFromRemote_idempotent_witness :
    downloadFromRemote id (fun _ => some "bytes")
        ⟨"remote.wav", "http://x", "bytes"⟩ "/d" false
        [("/d/remote.wav", "bytes")]
      = .ok ("/d/remote.wav", [("/d/remote.wav", "bytes")], 0) := by
  exact downloadFromRemote_idempotent id (fun _ => some "bytes")
    ⟨"remote.wav", "http://x", "bytes"⟩ "/d"
    [("/d/remote.wav", "bytes")] [("/d/remote.wav", "bytes")]
    "/d/remote.wav" 0 rfl

/-- C1: the code violates this claim.  On the one-track example dataset
with a loaded index, `Dataset.__getitem__("t1")` succeeds but rewrites
the cached index manifest in place: the `audio` entry's relative path
`"a.wav"` becomes `"/d/a.wav"` (the shallow `dict.copy()` at
dataset.py:28 shares the inner `[path, checksum]` lists with the cached
index, and the loop at dataset.py:29-32 assigns into them).  The cached
manifest is therefore *not* the same before and after the call. -/
theorem getItem_mutates_cached_index :
    manifestOf exDS = some exRaw
    ∧ manifestAfterGetItem exDS "t1"
        = some (some [("t1", [("audio", ("/d/a.wav", some "abc123"))])])
    ∧ manifestAfterGetItem exDS "t1" ≠ some (manifestOf exDS) := by
  refine ⟨by decide, by decide, by decide⟩

/-! ### Heap and allocation lemmas -/

theorem heapGet_eq {h : List Cell} {cid : Nat} {v : Cell}
    (hv : h.get? cid = some v) : heapGet h cid = v := by
  unfold heapGet
  rw [hv]
  rfl

theorem setCellPath_get_ne {h : List Cell} {cid : Nat} {p : String}
    {j : Nat} (hne : cid ≠ j) :
    (setCellPath h cid p).get? j = h.get? j := by
  unfold setCellPath
  cases hc : h.get? cid with
  | none => rfl
  | some v =>
      obtain ⟨q, c⟩ := v
      exact List.get?_set_ne _ _ hne

theorem setCellPath_get_self {h : List Cell} {cid : Nat} {p q : String}
    {c : Option String} (hv : h.get? cid = some (q, c)) :
    (setCellPath h cid p).get? cid = some (p, c) := by
  unfold setCellPath
  rw [hv, List.get?_set_eq, hv]
  rfl

theorem joinCells_get_not_mem {dh : String} :
    ∀ (rc : List (String × Nat)) (h : List Cell) {cid : Nat},
      cid ∉ rc.map Prod.snd →
      (joinCells dh h rc).get? cid = h.get? cid := by
  intro rc
  induction rc with
  | nil => intro h cid _; rfl
  | cons hd rest ih =>
      intro h cid hmem
      obtain ⟨r₀, c₀⟩ := hd
      simp only [List.map_cons, List.mem_cons] at hmem
      push_neg at hmem
      simp only [joinCells]
      rw [ih _ hmem.2, setCellPath_get_ne (fun hc => hmem.1 hc.symm)]

theorem joinCells_get_mem {dh : String} :
    ∀ (rc : List (String × Nat)) (h : List Cell) {role : String}
      {cid : Nat} {p : String} {c : Option String},
      (rc.map Prod.snd).Nodup → (role, cid) ∈ rc →
      h.get? cid = some (p, c) →
      (joinCells dh h rc).get? cid = some (pathJoin dh p, c) := by
  intro rc
  induction rc with
  | nil => intro h role cid p c _ hmem _; simp at hmem
  | cons hd rest ih =>
      intro h role cid p c hnd hmem hv
      obtain ⟨r₀, c₀⟩ := hd
      simp only [List.map_cons, List.nodup_cons] at hnd
      simp only [joinCells]
      rcases List.mem_cons.1 hmem with heq | hmem₂
      · injection heq with h₁ h₂
        subst h₁
        subst h₂
        rw [joinCells_get_not_mem rest _ hnd.1]
        rw [heapGet_eq hv]
        exact setCellPath_get_self hv
      · have hcid : cid ∈ rest.map Prod.snd :=
          List.mem_map.2 ⟨(role, cid), hmem₂, rfl⟩
        have hne : c₀ ≠ cid := fun hc => hnd.1 (hc ▸ hcid)
        exact ih _ hnd.2 hmem₂ (by rw [setCellPath_get_ne hne]; exact hv)

theorem allocRoles_snd :
    ∀ (roles : RawRoles) (off : Nat),
      (allocRoles off roles).map Prod.snd = List.range' off roles.length := by
  intro roles
  induction roles with
  | nil => intro off; rfl
  | cons hd rest ih =>
      intro off
      obtain ⟨r, cell⟩ := hd
      simp only [allocRoles, List.map_cons, List.length_cons,
        List.range'_succ, ih]

theorem allocRoles_nodup (roles : RawRoles) (off : Nat) :
    ((allocRoles off roles).map Prod.snd).Nodup := by
  rw [allocRoles_snd]
  exact List.nodup_range' off roles.length

theorem allocTracks_fst :
    ∀ (raw : RawIndex) (off : Nat),
      (allocTracks off raw).map Prod.fst = raw.map Prod.fst := by
  intro raw
  induction raw with
  | nil => intro off; rfl
  | cons hd rest ih =>
      intro off
      obtain ⟨tid, roles⟩ := hd
      simp only [allocTracks, List.map_cons, ih]

theorem allocRoles_cellsMatch :
    ∀ (roles : RawRoles) (off : Nat) (pre post : List Cell),
      pre.length = off →
      cellsMatch (pre ++ (rolesCells roles ++ post)) (allocRoles off roles)
        roles := by
  intro roles
  induction roles with
  | nil => intro off pre post _; exact List.Forall₂.nil
  | cons hd rest ih =>
      intro off pre post hlen
      obtain ⟨r, cell⟩ := hd
      refine List.Forall₂.cons ⟨rfl, ?_⟩ ?_
      · rw [List.get?_append_right (le_of_eq hlen), hlen]
        simp [rolesCells]
      · have hcast : (pre ++ [cell]) ++ (rolesCells rest ++ post)
            = pre ++ (rolesCells (⟨r, cell⟩ :: rest) ++ post) := by
          simp [rolesCells, List.append_assoc]
        have := ih (off + 1) (pre ++ [cell]) post
          (by simp [hlen])
        rw [hcast] at this
        exact this

theorem allocTracks_cellsMatch :
    ∀ (raw : RawIndex) (off : Nat) (pre : List Cell),
      pre.length = off →
      List.Forall₂
        (fun e₁ e₂ => e₁.1 = e₂.1
          ∧ cellsMatch (pre ++ heapOfRaw raw) e₁.2 e₂.2)
        (allocTracks off raw) raw := by
  intro raw
  induction raw with
  | nil => intro off pre _; exact List.Forall₂.nil
  | cons hd rest ih =>
      intro off pre hlen
      obtain ⟨tid, roles⟩ := hd
      refine List.Forall₂.cons ⟨rfl, ?_⟩ ?_
      · have : pre ++ heapOfRaw ((tid, roles) :: rest)
            = pre ++ (rolesCells roles ++ heapOfRaw rest) := by
          simp [heapOfRaw]
        rw [this]
        exact allocRoles_cellsMatch roles off pre (heapOfRaw rest) hlen
      · have hcast : (pre ++ rolesCells roles) ++ heapOfRaw rest
            = pre ++ heapOfRaw ((tid, roles) :: rest) := by
          simp [heapOfRaw, List.append_assoc]
        have := ih (off + roles.length) (pre ++ rolesCells roles)
          (by simp [rolesCells, hlen])
        rw [hcast] at this
        exact this

theorem assocLookup_rel {α β : Type} {R : α → β → Prop} :
    ∀ {l₁ : List (String × α)} {l₂ : List (String × β)},
      List.Forall₂ (fun a b => a.1 = b.1 ∧ R a.2 b.2) l₁ l₂ →
      ∀ {k : String} {v : β}, assocLookup k l₂ = some v →
        ∃ u, assocLookup k l₁ = some u ∧ R u v := by
  intro l₁ l₂ hrel
  induction hrel with
  | nil => intro k v hv; exact absurd hv (by simp [assocLookup])
  | cons ha hrest ih =>
      rename_i a b bs as
      intro k v hv
      obtain ⟨k₁, u₁⟩ := a
      obtain ⟨k₂, v₂⟩ := b
      obtain ⟨hk, hR⟩ := ha
      simp only at hk
      subst hk
      by_cases hkk : k₁ = k
      · simp only [assocLookup, if_pos hkk] at hv ⊢
        exact ⟨u₁, rfl, (Option.some.inj hv) ▸ hR⟩
      · simp only [assocLookup, if_neg hkk] at hv ⊢
        exact ih hv

theorem forall₂_keys {α β : Type} {R : α → β → Prop} :
    ∀ {l₁ : List (String × α)} {l₂ : List (String × β)},
      List.Forall₂ (fun a b => a.1 = b.1 ∧ R a.2 b.2) l₁ l₂ →
      l₁.map Prod.fst = l₂.map Prod.fst := by
  intro l₁ l₂ hrel
  induction hrel with
  | nil => rfl
  | cons ha _ ih => simp only [List.map_cons, ha.1, ih]

/-! ### Characterizations of the cached accessors and of `__getitem__` -/

theorem metadataAccess_cached {ds : DatasetState} {md : Metadata}
    (h : ds.metadataCache = some md) : metadataAccess ds = .ok (md, ds, 0) := by
  unfold metadataAccess
  rw [h]

theorem metadataAccess_fresh {ds : DatasetState} {lm : Metadata}
    (hc : ds.metadataCache = none)
    (hl : ds.loadMeta ds.dataHome = some lm) :
    metadataAccess ds
      = .ok (assocSet lm "data_home" (.home ds.dataHome),
          { ds with metadataCache
              := some (assocSet lm "data_home" (.home ds.dataHome)) }, 1) := by
  unfold metadataAccess
  rw [hc, hl]

theorem metadataAccess_fields {ds : DatasetState} {md : Metadata}
    {ds₁ : DatasetState} {r₁ : Nat}
    (h : metadataAccess ds = .ok (md, ds₁, r₁)) :
    ds₁.dataHome = ds.dataHome ∧ ds₁.rawIndex = ds.rawIndex
    ∧ ds₁.loadMeta = ds.loadMeta ∧ ds₁.heap = ds.heap
    ∧ ds₁.indexCache = ds.indexCache ∧ ds₁.metadataCache = some md
    ∧ r₁ ≤ 1 := by
  unfold metadataAccess at h
  split at h
  · rename_i m hm
    cases h
    exact ⟨rfl, rfl, rfl, rfl, rfl, hm, by omega⟩
  · split at h
    · exact absurd h (by simp)
    · cases h
      exact ⟨rfl, rfl, rfl, rfl, rfl, rfl, le_refl 1⟩

theorem indexAccess_cached {ds : DatasetState}
    {idx : List (String × List (String × Nat))}
    (h : ds.indexCache = some idx) : indexAccess ds = (idx, ds, 0) := by
  unfold indexAccess
  rw [h]

theorem getItem_ok_char {ds : DatasetState} {tid : String} {md : Metadata}
    {ds₁ : DatasetState} {r₁ : Nat} {tmd : MetaEntry}
    {idx : List (String × List (String × Nat))} {rc : List (String × Nat)}
    (hma : metadataAccess ds = .ok (md, ds₁, r₁))
    (hmd : assocLookup tid md = some tmd)
    (hidx : ds₁.indexCache = some idx)
    (hrc : assocLookup tid idx = some rc) :
    getItem ds tid
      = .ok (⟨tmd, rc⟩,
          { ds₁ with heap := joinCells ds₁.dataHome ds₁.heap rc }, r₁) := by
  unfold getItem
  rw [hma]
  simp only [hmd, indexAccess_cached hidx, hrc, Nat.add_zero]

theorem getItem_err_of_unknown {ds : DatasetState} {tid : String}
    {md : Metadata} {ds₁ : DatasetState} {r₁ : Nat}
    {idx : List (String × List (String × Nat))}
    (hma : metadataAccess ds = .ok (md, ds₁, r₁))
    (hidx : ds₁.indexCache = some idx)
    (hmem : tid ∉ idx.map Prod.fst) :
    getItem ds tid = .error (.keyError tid) := by
  unfold getItem
  rw [hma]
  cases hmd : assocLookup tid md with
  | none => simp only [hmd]
  | some tmd =>
      simp only [hmd, indexAccess_cached hidx, assocLookup_eq_none hmem]

theorem assocLookup_mem {β : Type} {k : String} {v : β} :
    ∀ {l : List (String × β)}, assocLookup k l = some v → (k, v) ∈ l := by
  intro l
  induction l with
  | nil => intro h; exact absurd h (by simp [assocLookup])
  | cons hd tl ih =>
      intro h
      obtain ⟨k₂, v₂⟩ := hd
      by_cases hk : k₂ = k
      · simp only [assocLookup, if_pos hk] at h
        subst hk
        exact List.mem_cons.2 (Or.inl (by rw [Option.some.inj h]))
      · simp only [assocLookup, if_neg hk] at h
        exact List.mem_cons.2 (Or.inr (ih h))

theorem allocTracks_mem_nodup :
    ∀ (raw : RawIndex) (off : Nat) (e : String × List (String × Nat)),
      e ∈ allocTracks off raw → (e.2.map Prod.snd).Nodup := by
  intro raw
  induction raw with
  | nil => intro off e he; simp [allocTracks] at he
  | cons hd rest ih =>
      intro off e he
      obtain ⟨tid, roles⟩ := hd
      rcases List.mem_cons.1 he with heq | hmem
      · subst heq
        exact allocRoles_nodup roles off
      · exact ih (off + roles.length) e hmem

/-- C7: for every track id in the index and every file role of that
track, the constructed Track's resolved path for that role is
`os.path.join(data_home, relative_path)` with the relative path taken
from the index entry; in particular, on the example index
`{"tracks": {"t1": {"audio": ["a.wav", "abc123"]}}}` with
`data_home = "/d"`, `dataset.track("t1").audio_path` is `"/d/a.wav"`. -/
theorem trackPaths_resolved :
    (∀ (dh : String) (raw : RawIndex) (lm : String → Option Metadata)
        (lmv : Metadata) (tid role rel : String) (chk : Option String)
        (roles : RawRoles) (tmd : MetaEntry),
        lm dh = some lmv →
        assocLookup tid (assocSet lmv "data_home" (.home dh)) = some tmd →
        assocLookup tid raw = some roles →
        assocLookup role roles = some (rel, chk) →
        ∃ t ds₂ r, getItem (loadedDS dh raw lm) tid = .ok (t, ds₂, r)
          ∧ trackPath ds₂.heap t role = some (pathJoin dh rel))
    ∧ getItemPath exDS "t1" "audio" = some "/d/a.wav" := by
  constructor
  · intro dh raw lm lmv tid role rel chk roles tmd hlm hmd hroles hrole
    have hma := @metadataAccess_fresh (loadedDS dh raw lm) lmv rfl hlm
    have halloc := allocTracks_cellsMatch raw 0 [] rfl
    simp only [List.nil_append] at halloc
    obtain ⟨rc, hrc, hmatch⟩ := @assocLookup_rel _ _
      (fun rc₂ roles₂ => cellsMatch (heapOfRaw raw) rc₂ roles₂)
      _ _ halloc _ _ hroles
    have hnd : (rc.map Prod.snd).Nodup :=
      allocTracks_mem_nodup raw 0 (tid, rc) (assocLookup_mem hrc)
    have hget := getItem_ok_char hma hmd rfl hrc
    refine ⟨⟨tmd, rc⟩, _, 1, hget, ?_⟩
    obtain ⟨cid, hcid, hcell⟩ := @assocLookup_rel _ _
      (fun cid cell => (heapOfRaw raw).get? cid = some cell)
      _ _ hmatch _ _ hrole
    have hjoin := @joinCells_get_mem dh rc (heapOfRaw raw) _ _ _ _ hnd
      (assocLookup_mem hcid) hcell
    simp only [trackPath, hcid, Option.map_some', loadedDS]
    rw [heapGet_eq hjoin]
  · decide

/-- C7 witness: the general statement applied at the example dataset. -/
theorem trackPaths_resolved_witness :
    ∃ t ds₂ r, getItem (loadedDS "/d" exRaw exLM) "t1" = .ok (t, ds₂, r)
      ∧ trackPath ds₂.heap t "audio" = some (pathJoin "/d" "a.wav") := by
  exact trackPaths_resolved.1 "/d" exRaw exLM [("t1", .fields [])]
    "t1" "audio" "a.wav" (some "abc123")
    [("audio", ("a.wav", some "abc123"))] (.fields [])
    rfl (by decide) (by decide) (by decide)

theorem getItem_err_unknown {ds : DatasetState} {tid : String}
    {md : Metadata} {ds₁ : DatasetState} {r₁ : Nat}
    (hma : metadataAccess ds = .ok (md, ds₁, r₁))
    (hmem : tid ∉ indexKeys ds₁) :
    getItem ds tid = .error (.keyError tid) := by
  unfold getItem
  rw [hma]
  cases hmd : assocLookup tid md with
  | none => simp only [hmd]
  | some tmd =>
      simp only [hmd]
      rcases heq : indexAccess ds₁ with ⟨idx, ds₂, r₂⟩
      unfold indexKeys at hmem
      rw [heq] at hmem
      simp only [assocLookup_eq_none hmem]

/-- C8: looking up a track id that is not in the index raises an error
naming the offending id, and no Track is constructed.
`Dataset.__getitem__` raises `KeyError(track_id)` (from the metadata or
the index dict lookup, whichever fires first); `salami.load_track`
raises `ValueError` with a message naming the id before building any
`SalamiTrack`.  These are the code's realizations of the spec's
`UnknownTrackIdError`. -/
theorem unknownTrackId_raises :
    (∀ (ds : DatasetState) (tid : String) (md : Metadata)
        (ds₁ : DatasetState) (r₁ : Nat),
        metadataAccess ds = .ok (md, ds₁, r₁) →
        tid ∉ indexKeys ds₁ →
        getItem ds tid = .error (.keyError tid))
    ∧ (∀ (index : RawIndex) (tid : String), tid ∉ index.map Prod.fst →
        salamiLoadTrackError index tid
          = some (tid ++ " is not a valid track ID in Salami")) := by
  constructor
  · intro ds tid md ds₁ r₁ hma hmem
    exact getItem_err_unknown hma hmem
  · intro index tid hmem
    unfold salamiLoadTrackError
    rw [assocLookup_eq_none hmem]
    rfl

/-- C8 witness: the unknown id `"zz"` on the example dataset. -/
theorem unknownTrackId_raises_witness :
    getItem exDS "zz" = .error (.keyError "zz")
    ∧ salamiLoadTrackError exRaw "zz"
        = some ("zz" ++ " is not a valid track ID in Salami") := by
  refine ⟨?_, unknownTrackId_raises.2 exRaw "zz" (by decide)⟩
  exact unknownTrackId_raises.1 exDS "zz" _ _ _
    (metadataAccess_fresh rfl rfl) (by decide)

theorem loadGo_ok :
    ∀ (tids : List String) (ds : DatasetState) (md : Metadata)
      (idx : List (String × List (String × Nat))),
      ds.metadataCache = some md →
      ds.indexCache = some idx →
      (∀ tid ∈ tids, (assocLookup tid md).isSome) →
      (∀ tid ∈ tids, (assocLookup tid idx).isSome) →
      ∃ ts ds₂, loadGo ds tids = .ok (ts, ds₂, 0)
        ∧ ts.map Prod.fst = tids
        ∧ ds₂.metadataCache = some md ∧ ds₂.indexCache = some idx := by
  intro tids
  induction tids with
  | nil =>
      intro ds md idx hmc hic _ _
      exact ⟨[], ds, rfl, rfl, hmc, hic⟩
  | cons tid rest ih =>
      intro ds md idx hmc hic hcovm hcovi
      obtain ⟨tmd, hmd⟩ := Option.isSome_iff_exists.1
        (hcovm tid (List.mem_cons_self tid rest))
      obtain ⟨rc, hrc⟩ := Option.isSome_iff_exists.1
        (hcovi tid (List.mem_cons_self tid rest))
      have hget := getItem_ok_char (metadataAccess_cached hmc) hmd hic hrc
      obtain ⟨ts, ds₃, hgo, hkeys, hmc₃, hic₃⟩ :=
        ih { ds with heap := joinCells ds.dataHome ds.heap rc } md idx
          hmc hic
          (fun t ht => hcovm t (List.mem_cons_of_mem tid ht))
          (fun t ht => hcovi t (List.mem_cons_of_mem tid ht))
      refine ⟨(tid, ⟨tmd, rc⟩) :: ts, ds₃, ?_, by simp [hkeys], hmc₃, hic₃⟩
      simp only [loadGo, hget, hgo]

/-- C3 (amended): with a loaded index, `Dataset.load` constructs exactly
one Track per track id, in index order; the only file read its track
constructions perform is the one-time metadata load triggered by the
first construction — in particular zero reads when the metadata cache is
already populated.  (The claim as stated — no file reads at all — fails:
see the counterexample theorem.) -/
theorem datasetLoad_one_track_each :
    ∀ (ds : DatasetState) (idx : List (String × List (String × Nat)))
      (md : Metadata) (ds₁ : DatasetState) (r₁ : Nat),
      ds.indexCache = some idx →
      metadataAccess ds = .ok (md, ds₁, r₁) →
      (∀ tid ∈ idx.map Prod.fst, (assocLookup tid md).isSome) →
      ∃ ts ds₂ n, datasetLoad ds = .ok (ts, ds₂, n)
        ∧ ts.map Prod.fst = idx.map Prod.fst
        ∧ n ≤ 1
        ∧ (ds.metadataCache.isSome = true → n = 0) := by
  intro ds idx md ds₁ r₁ hic hma hcovm
  have hfields := metadataAccess_fields hma
  have hcached : ds.metadataCache.isSome = true → r₁ = 0 := by
    intro hsome
    obtain ⟨m, hm⟩ := Option.isSome_iff_exists.1 hsome
    rw [metadataAccess_cached hm] at hma
    cases hma
    rfl
  have hdl : datasetLoad ds
      = match loadGo ds (idx.map Prod.fst) with
        | .error e => .error e
        | .ok (ts, ds₂, r) => .ok (ts, ds₂, 0 + r) := by
    unfold datasetLoad
    rw [indexAccess_cached hic]
  cases hkeys : idx.map Prod.fst with
  | nil =>
      rw [hkeys] at hdl
      refine ⟨[], ds, 0, ?_, rfl, by omega, fun _ => rfl⟩
      simpa [loadGo] using hdl
  | cons tid rest =>
      have hmemt : tid ∈ idx.map Prod.fst := by
        rw [hkeys]
        simp
      obtain ⟨tmd, hmd⟩ := Option.isSome_iff_exists.1 (hcovm tid hmemt)
      obtain ⟨rc, hrc⟩ := Option.isSome_iff_exists.1
        (assocLookup_isSome_of_mem hmemt)
      have hget := getItem_ok_char hma hmd
        (hfields.2.2.2.2.1.symm ▸ hic) hrc
      have hcovm₂ : ∀ t ∈ rest, (assocLookup t md).isSome := by
        intro t ht
        have hmem : t ∈ idx.map Prod.fst := by
          rw [hkeys]
          exact List.mem_cons_of_mem tid ht
        exact hcovm t hmem
      have hcovi₂ : ∀ t ∈ rest, (assocLookup t idx).isSome := by
        intro t ht
        have hmem : t ∈ idx.map Prod.fst := by
          rw [hkeys]
          exact List.mem_cons_of_mem tid ht
        exact assocLookup_isSome_of_mem hmem
      obtain ⟨ts, ds₃, hgo, hkeys₂, -, -⟩ :=
        loadGo_ok rest { ds₁ with heap := joinCells ds₁.dataHome ds₁.heap rc }
          md idx hfields.2.2.2.2.2.1 (hfields.2.2.2.2.1.symm ▸ hic)
          hcovm₂ hcovi₂
      rw [hkeys] at hdl
      simp only [loadGo, hget, hgo] at hdl
      refine ⟨(tid, ⟨tmd, rc⟩) :: ts, ds₃, r₁, ?_, ?_, hfields.2.2.2.2.2.2,
        hcached⟩
      · simpa using hdl
      · simp [hkeys₂]

/-- C3 witness: the amended load theorem applied at the example dataset. -/
theorem datasetLoad_one_track_each_witness :
    ∃ ts ds₂ n, datasetLoad exDS = .ok (ts, ds₂, n)
      ∧ ts.map Prod.fst = (allocTracks 0 exRaw).map Prod.fst
      ∧ n ≤ 1
      ∧ (exDS.metadataCache.isSome = true → n = 0) := by
  exact datasetLoad_one_track_each exDS (allocTracks 0 exRaw) _ _ _
    rfl (metadataAccess_fresh rfl rfl) (by decide)

/-- C3 counterexample to the claim as stated: on the example dataset
with a loaded index (and the usual initial state, metadata not yet
cached), building the tracks performs one file read — the metadata load
triggered inside the first `__getitem__` (dataset.py:27) — not zero. -/
theorem datasetLoad_reads_metadata_file :
    loadReads exDS = some 1 ∧ ¬ loadReads exDS = some 0 := by
  exact ⟨by decide, by decide⟩

theorem track2Validate_of_joined (hash : String → String)
    (fs : List (String × String)) (dh : String) (h₂ : List Cell) :
    ∀ (rc : List (String × Nat)) (roles : RawRoles),
      List.Forall₂
        (fun (a : String × Nat) (b : String × Cell) =>
          h₂.get? a.2 = some (pathJoin dh b.2.1, b.2.2)) rc roles →
      track2Validate hash fs h₂ rc = trackSpecRes hash fs dh roles := by
  intro rc roles hrel
  induction hrel with
  | nil => rfl
  | cons ha hrest ih =>
      rename_i a b as bs
      obtain ⟨role, cid⟩ := a
      simp only [track2Validate, trackSpecRes, List.map_cons, vconcat]
      rw [heapGet_eq ha, ih]
      rfl

theorem cellsMatch_joined {dh : String} {h : List Cell}
    {rc : List (String × Nat)} {roles : RawRoles}
    (hm : cellsMatch h rc roles) (hnd : (rc.map Prod.snd).Nodup) :
    List.Forall₂
      (fun (a : String × Nat) (b : String × Cell) =>
        (joinCells dh h rc).get? a.2 = some (pathJoin dh b.2.1, b.2.2))
      rc roles := by
  have hm₂ : List.Forall₂
      (fun (a : String × Nat) (b : String × Cell) =>
        a.1 = b.1 ∧ h.get? a.2 = some b.2) rc roles := hm
  rw [List.forall₂_iff_zip] at hm₂ ⊢
  refine ⟨hm₂.1, ?_⟩
  intro a b hab
  have ham : a ∈ rc := (List.of_mem_zip hab).1
  obtain ⟨-, hget⟩ := hm₂.2 hab
  have hmem : (a.1, a.2) ∈ rc := by
    rw [Prod.mk.eta]
    exact ham
  have hget₂ : h.get? a.2 = some (b.2.1, b.2.2) := by
    rw [Prod.mk.eta]
    exact hget
  exact joinCells_get_mem rc h hnd hmem hget₂

theorem track2Validate_eq (hash : String → String)
    (fs : List (String × String)) {dh : String} {h : List Cell}
    {rc : List (String × Nat)} {roles : RawRoles}
    (hm : cellsMatch h rc roles) (hnd : (rc.map Prod.snd).Nodup) :
    track2Validate hash fs (joinCells dh h rc) rc
      = trackSpecRes hash fs dh roles :=
  track2Validate_of_joined hash fs dh _ rc roles (cellsMatch_joined hm hnd)

theorem cellsMatch_preserved {dh : String} {h : List Cell}
    {rcMut : List (String × Nat)} :
    ∀ {rc : List (String × Nat)} {roles : RawRoles},
      cellsMatch h rc roles →
      (∀ c ∈ rc.map Prod.snd, c ∉ rcMut.map Prod.snd) →
      cellsMatch (joinCells dh h rcMut) rc roles := by
  intro rc roles hm
  induction hm with
  | nil => intro _; exact List.Forall₂.nil
  | cons ha hrest ih =>
      rename_i a b as bs
      intro hdisj
      refine List.Forall₂.cons ⟨ha.1, ?_⟩ (ih ?_)
      · rw [joinCells_get_not_mem rcMut h
          (hdisj a.2 (by simp))]
        exact ha.2
      · intro c hc
        exact hdisj c (by simp [hc])

theorem tracksMatch_preserved {dh : String} {h : List Cell}
    {rcMut : List (String × Nat)} :
    ∀ {idxS : List (String × List (String × Nat))}
      {rawS : List (String × RawRoles)},
      List.Forall₂ (fun e₁ e₂ => e₁.1 = e₂.1 ∧ cellsMatch h e₁.2 e₂.2)
        idxS rawS →
      (∀ e ∈ idxS, ∀ c ∈ e.2.map Prod.snd, c ∉ rcMut.map Prod.snd) →
      List.Forall₂
        (fun e₁ e₂ => e₁.1 = e₂.1
          ∧ cellsMatch (joinCells dh h rcMut) e₁.2 e₂.2) idxS rawS := by
  intro idxS rawS hm
  induction hm with
  | nil => intro _; exact List.Forall₂.nil
  | cons ha hrest ih =>
      rename_i a b as bs
      intro hdisj
      refine List.Forall₂.cons ⟨ha.1,
        cellsMatch_preserved ha.2 (hdisj a (by simp))⟩ (ih ?_)
      intro e he
      exact hdisj e (by simp [he])

theorem allocTracks_cells_lb :
    ∀ (raw : RawIndex) (off : Nat) (e : String × List (String × Nat)),
      e ∈ allocTracks off raw → ∀ c ∈ e.2.map Prod.snd, off ≤ c := by
  intro raw
  induction raw with
  | nil => intro off e he; simp [allocTracks] at he
  | cons hd rest ih =>
      intro off e he c hc
      obtain ⟨tid, roles⟩ := hd
      rcases List.mem_cons.1 he with heq | hmem
      · subst heq
        rw [allocRoles_snd] at hc
        obtain ⟨i, -, hci⟩ := List.mem_range'.1 hc
        omega
      · have := ih (off + roles.length) e hmem c hc
        omega

theorem allocTracks_pairwise :
    ∀ (raw : RawIndex) (off : Nat),
      List.Pairwise
        (fun e₁ e₂ => ∀ c ∈ e₁.2.map Prod.snd, c ∉ e₂.2.map Prod.snd)
        (allocTracks off raw) := by
  intro raw
  induction raw with
  | nil => intro off; exact List.Pairwise.nil
  | cons hd rest ih =>
      intro off
      obtain ⟨tid, roles⟩ := hd
      refine List.Pairwise.cons ?_ (ih (off + roles.length))
      intro e he c hc hce
      rw [allocRoles_snd] at hc
      obtain ⟨i, hi, hci⟩ := List.mem_range'.1 hc
      have := allocTracks_cells_lb rest (off + roles.length) e he c hce
      omega

theorem assocLookup_self_of_nodup {β : Type} :
    ∀ {l : List (String × β)}, (l.map Prod.fst).Nodup →
      ∀ e ∈ l, assocLookup e.1 l = some e.2 := by
  intro l
  induction l with
  | nil => intro _ e he; simp at he
  | cons hd tl ih =>
      intro hnd e he
      obtain ⟨k₂, v₂⟩ := hd
      simp only [List.map_cons, List.nodup_cons] at hnd
      rcases List.mem_cons.1 he with heq | hmem
      · subst heq
        simp [assocLookup]
      · have hne : k₂ ≠ e.1 := by
          intro hc
          exact hnd.1 (hc ▸ List.mem_map.2 ⟨e, hmem, rfl⟩)
        simp only [assocLookup, if_neg hne]
        exact ih hnd.2 e hmem

theorem validateGo_spec (hash : String → String)
    (fs : List (String × String)) (dh : String) (md : Metadata)
    (idxFull : List (String × List (String × Nat))) :
    ∀ (idxS : List (String × List (String × Nat)))
      (rawS : List (String × RawRoles)) (ds : DatasetState),
      ds.dataHome = dh →
      ds.metadataCache = some md →
      ds.indexCache = some idxFull →
      (∀ e ∈ idxS, assocLookup e.1 idxFull = some e.2) →
      (∀ e ∈ idxS, (assocLookup e.1 md).isSome) →
      (∀ e ∈ idxS, (e.2.map Prod.snd).Nodup) →
      List.Forall₂ (fun e₁ e₂ => e₁.1 = e₂.1 ∧ cellsMatch ds.heap e₁.2 e₂.2)
        idxS rawS →
      List.Pairwise
        (fun e₁ e₂ => ∀ c ∈ e₁.2.map Prod.snd, c ∉ e₂.2.map Prod.snd)
        idxS →
      ∃ ds₂, validateGo hash fs ds (idxS.map Prod.fst)
        = .ok (vconcat (rawS.map fun e => trackSpecRes hash fs dh e.2),
            ds₂) := by
  intro idxS
  induction idxS with
  | nil =>
      intro rawS ds _ _ _ _ _ _ hf _
      cases hf
      exact ⟨ds, rfl⟩
  | cons e₁ rest₁ ih =>
      intro rawS ds hdh hmc hic hlk hcov hnd hf hpw
      cases hf with
      | cons hhead hftail =>
          rename_i e₂ rest₂
          obtain ⟨tmd, hmd⟩ := Option.isSome_iff_exists.1
            (hcov e₁ (List.mem_cons_self e₁ rest₁))
          have hget := getItem_ok_char (metadataAccess_cached hmc) hmd hic
            (hlk e₁ (List.mem_cons_self e₁ rest₁))
          have hnd₁ := hnd e₁ (List.mem_cons_self e₁ rest₁)
          have hdisj : ∀ e ∈ rest₁, ∀ c ∈ e.2.map Prod.snd,
              c ∉ e₁.2.map Prod.snd := by
            intro e he c hce hc₁
            exact (List.pairwise_cons.1 hpw).1 e he c hc₁ hce
          obtain ⟨ds₃, hgo⟩ := ih rest₂
            { ds with heap := joinCells ds.dataHome ds.heap e₁.2 }
            hdh hmc hic
            (fun e he => hlk e (List.mem_cons_of_mem e₁ he))
            (fun e he => hcov e (List.mem_cons_of_mem e₁ he))
            (fun e he => hnd e (List.mem_cons_of_mem e₁ he))
            (tracksMatch_preserved hftail hdisj)
            (List.pairwise_cons.1 hpw).2
          refine ⟨ds₃, ?_⟩
          simp only [List.map_cons, validateGo, hget, hgo]
          have hval : track2Validate hash fs
              (joinCells ds.dataHome ds.heap e₁.2) e₁.2
                = trackSpecRes hash fs dh e₂.2 := by
            rw [hdh]
            exact track2Validate_eq hash fs hhead.2 hnd₁
          rw [hval]
          rfl

theorem trackSpecRes_eq (hash : String → String)
    (fs : List (String × String)) (dh : String) :
    ∀ (roles : RawRoles),
      trackSpecRes hash fs dh roles
        = ⟨specMissing fs (roles.map fun r => (pathJoin dh r.2.1, r.2.2)),
           specInvalid hash fs
             (roles.map fun r => (pathJoin dh r.2.1, r.2.2)),
           specHashed fs (roles.map fun r => (pathJoin dh r.2.1, r.2.2))⟩ := by
  intro roles
  induction roles with
  | nil => rfl
  | cons r rest ih =>
      simp only [trackSpecRes, List.map_cons, vconcat] at ih ⊢
      rw [ih]
      cases hl : assocLookup (pathJoin dh r.2.1) fs with
      | none =>
          simp [validateEntry, vappend, specMissing, specInvalid, specHashed,
            hl, List.filter_cons, List.filterMap_cons]
      | some content =>
          cases hc : r.2.2 with
          | none =>
              simp [validateEntry, vappend, specMissing, specInvalid,
                specHashed, hl, hc, List.filter_cons, List.filterMap_cons]
          | some c =>
              by_cases hh : hash content = c
              · simp [validateEntry, vappend, specMissing, specInvalid,
                  specHashed, hl, hc, hh, List.filter_cons,
                  List.filterMap_cons]
              · simp [validateEntry, vappend, specMissing, specInvalid,
                  specHashed, hl, hc, hh, List.filter_cons,
                  List.filterMap_cons]

theorem vconcat_tracks_eq (hash : String → String)
    (fs : List (String × String)) (dh : String) :
    ∀ (raw : RawIndex),
      vconcat (raw.map fun e => trackSpecRes hash fs dh e.2)
        = ⟨specMissing fs (specTriples dh raw),
           specInvalid hash fs (specTriples dh raw),
           specHashed fs (specTriples dh raw)⟩ := by
  intro raw
  induction raw with
  | nil => rfl
  | cons e rest ih =>
      show vappend (trackSpecRes hash fs dh e.2)
          (vconcat (rest.map fun e => trackSpecRes hash fs dh e.2)) = _
      rw [ih, trackSpecRes_eq hash fs dh]
      have htr : specTriples dh (e :: rest)
          = (e.2.map fun r => (pathJoin dh r.2.1, r.2.2))
            ++ specTriples dh rest := by
        simp [specTriples]
      rw [htr]
      simp [vappend, specMissing, specInvalid, specHashed,
        List.filter_append, List.map_append, List.filterMap_append]

theorem validateGo_warm (hash : String → String)
    (fs : List (String × String)) {ds ds₁ : DatasetState} {md : Metadata}
    {r₁ : Nat} (hma : metadataAccess ds = .ok (md, ds₁, r₁))
    (tid : String) (rest : List String) :
    validateGo hash fs ds (tid :: rest)
      = validateGo hash fs ds₁ (tid :: rest) := by
  have hfields := metadataAccess_fields hma
  simp only [validateGo]
  unfold getItem
  rw [hma, metadataAccess_cached hfields.2.2.2.2.2.1]
  cases hmd : assocLookup tid md with
  | none => simp only [hmd]
  | some tmd =>
      simp only [hmd]
      rcases heq : indexAccess ds₁ with ⟨idx, ds₂, r₂⟩
      simp only [heq]
      cases hrc : assocLookup tid idx with
      | none => simp only [hrc]
      | some rc => simp only [hrc]

theorem datasetValidate_char (hash : String → String)
    (fs : List (String × String)) (dh : String) (raw : RawIndex)
    (lm : String → Option Metadata) (lmv : Metadata)
    (hlm : lm dh = some lmv)
    (hnd : (raw.map Prod.fst).Nodup)
    (hcov : ∀ tid ∈ raw.map Prod.fst,
      (assocLookup tid (assocSet lmv "data_home" (.home dh))).isSome) :
    ∃ ds₂, datasetValidate hash fs (loadedDS dh raw lm)
      = .ok (⟨specMissing fs (specTriples dh raw),
             specInvalid hash fs (specTriples dh raw),
             specHashed fs (specTriples dh raw)⟩, ds₂) := by
  have hidxkeys : (allocTracks 0 raw).map Prod.fst = raw.map Prod.fst :=
    allocTracks_fst raw 0
  have hvc := vconcat_tracks_eq hash fs dh raw
  have hdv : datasetValidate hash fs (loadedDS dh raw lm)
      = validateGo hash fs (loadedDS dh raw lm)
          ((allocTracks 0 raw).map Prod.fst) := by
    unfold datasetValidate
    rw [@indexAccess_cached (loadedDS dh raw lm) _ rfl]
  cases hkeys : (allocTracks 0 raw).map Prod.fst with
  | nil =>
      rw [hkeys] at hdv
      have hraw : raw = [] := by
        rw [hkeys] at hidxkeys
        exact List.map_eq_nil.1 hidxkeys.symm
      subst hraw
      exact ⟨loadedDS dh [] lm, by rw [hdv]; rfl⟩
  | cons tid rest =>
      have hma := @metadataAccess_fresh (loadedDS dh raw lm) lmv rfl hlm
      have hwarm := validateGo_warm hash fs hma tid rest
      obtain ⟨ds₂, hgo⟩ := validateGo_spec hash fs dh
        (assocSet lmv "data_home" (.home dh)) (allocTracks 0 raw)
        (allocTracks 0 raw) raw
        { loadedDS dh raw lm with
            metadataCache := some (assocSet lmv "data_home" (.home dh)) }
        rfl rfl rfl
        (assocLookup_self_of_nodup (hidxkeys ▸ hnd))
        (fun e he => hcov e.1 (hidxkeys ▸ List.mem_map.2 ⟨e, he, rfl⟩))
        (fun e he => allocTracks_mem_nodup raw 0 e he)
        (by
          have := allocTracks_cellsMatch raw 0 [] rfl
          simpa using this)
        (allocTracks_pairwise raw 0)
      rw [hvc] at hgo
      refine ⟨ds₂, ?_⟩
      rw [hdv, hkeys, hwarm, ← hkeys]
      exact hgo

/-- C5 (amended): provided the per-dataset metadata loads successfully
and covers every track id (`Dataset.validate` reaches each per-track
check through `self[track_id]`, dataset.py:97, which looks the id up in
the metadata dict first), `Dataset.validate` always completes and
returns the pair `(missing_files, invalid_checksums)`: existence is
checked first (a missing file is recorded in `missing_files` and its
checksum check skipped), an existing file with a non-matching recomputed
checksum is recorded in `invalid_checksums`, traversal is in track id
order then role order as declared, and no individual missing or
mismatched file raises.  (Without the metadata proviso the claim as
stated fails: see the counterexample theorem.)  Track ids are assumed
unique, as keys of the JSON index dict. -/
theorem datasetValidate_traversal (hash : String → String)
    (fs : List (String × String)) (dh : String) (raw : RawIndex)
    (lm : String → Option Metadata) (lmv : Metadata)
    (hlm : lm dh = some lmv)
    (hnd : (raw.map Prod.fst).Nodup)
    (hcov : ∀ tid ∈ raw.map Prod.fst,
      (assocLookup tid (assocSet lmv "data_home" (.home dh))).isSome) :
    ∃ res ds₂, datasetValidate hash fs (loadedDS dh raw lm)
        = .ok (res, ds₂)
      ∧ res.missing = specMissing fs (specTriples dh raw)
      ∧ res.invalid = specInvalid hash fs (specTriples dh raw) := by
  obtain ⟨ds₂, hch⟩ := datasetValidate_char hash fs dh raw lm lmv hlm hnd hcov
  exact ⟨_, ds₂, hch, rfl, rfl⟩

/-- C5 witness: a two-track example — one file present with a matching
checksum, one file absent, one present file with a wrong checksum — in
index traversal order. -/
theorem datasetValidate_traversal_witness :
    ∃ res ds₂,
      datasetValidate id
          [("/d/a.wav", "abc"), ("/d/c.wav", "zzz")]
          (loadedDS "/d"
            [("t1", [("audio", ("a.wav", some "abc"))]),
             ("t2", [("audio", ("b.wav", some "def")),
                     ("beats", ("c.wav", some "ghi"))])]
            (fun _ => some [("t1", .fields []), ("t2", .fields [])]))
        = .ok (res, ds₂)
      ∧ res.missing = ["/d/b.wav"]
      ∧ res.invalid = ["/d/c.wav"] := by
  obtain ⟨res, ds₂, hok, hm, hi⟩ := datasetValidate_traversal id
    [("/d/a.wav", "abc"), ("/d/c.wav", "zzz")] "/d"
    [("t1", [("audio", ("a.wav", some "abc"))]),
     ("t2", [("audio", ("b.wav", some "def")),
             ("beats", ("c.wav", some "ghi"))])]
    (fun _ => some [("t1", .fields []), ("t2", .fields [])])
    [("t1", .fields []), ("t2", .fields [])]
    rfl (by decide) (by decide)
  refine ⟨res, ds₂, hok, ?_, ?_⟩
  · rw [hm]
    decide
  · rw [hi]
    decide

/-- C5 counterexample to the claim as stated: on a filesystem without
the metadata file (`load_metadata` returns `None`, as the loaders do
when their metadata file is absent), `Dataset.validate` does not
complete with a pair — it raises a `TypeError`
(`metadata_index["data_home"] = ...` on `None`, reached from
`self[track_id]` at dataset.py:97). -/
theorem datasetValidate_raises_without_metadata :
    validateError id [] (loadedDS "/d" exRaw (fun _ => none))
        = some .typeError
    ∧ validateOutcome id [] (loadedDS "/d" exRaw (fun _ => none)) = none := by
  exact ⟨by decide, by decide⟩

/-- C9: a `None` expected checksum with an existing file is a
presence-only check.  First conjunct: the check of any single
`(path, None)` entry over any filesystem where the path exists reports
it in neither the missing nor the invalid list and never hashes its
content (empty hashed log).  Second conjunct: through the whole
`Dataset.validate` pipeline, an index whose entry has checksum `null`
and whose file exists yields empty missing, invalid and hashed lists. -/
theorem checksumNone_presence_only :
    (∀ (hash : String → String) (fs : List (String × String))
        (p content : String),
        assocLookup p fs = some content →
        validateEntry hash fs (p, none) = ⟨[], [], []⟩)
    ∧ (∀ (hash : String → String) (fs : List (String × String))
        (dh tid role rel : String) (lm : String → Option Metadata)
        (lmv : Metadata) (content : String),
        lm dh = some lmv →
        (assocLookup tid (assocSet lmv "data_home" (.home dh))).isSome →
        assocLookup (pathJoin dh rel) fs = some content →
        ∃ ds₂, datasetValidate hash fs
            (loadedDS dh [(tid, [(role, (rel, none))])] lm)
          = .ok (⟨[], [], []⟩, ds₂)) := by
  constructor
  · intro hash fs p content hfs
    simp [validateEntry, hfs]
  · intro hash fs dh tid role rel lm lmv content hlm hmd hfs
    obtain ⟨ds₂, hch⟩ := datasetValidate_char hash fs dh
      [(tid, [(role, (rel, none))])] lm lmv hlm (by simp)
      (by
        intro t ht
        simp only [List.map_cons, List.map_nil, List.mem_singleton] at ht
        subst ht
        exact hmd)
    refine ⟨ds₂, ?_⟩
    rw [hch]
    have h₁ : specMissing fs (specTriples dh [(tid, [(role, (rel, none))])])
        = [] := by
      simp [specMissing, specTriples, hfs]
    have h₂ : specInvalid hash fs
        (specTriples dh [(tid, [(role, (rel, none))])]) = [] := by
      simp [specInvalid, specTriples, hfs]
    have h₃ : specHashed fs (specTriples dh [(tid, [(role, (rel, none))])])
        = [] := by
      simp [specHashed, specTriples, hfs]
    rw [h₁, h₂, h₃]

/-- C9 witness: the presence-only check at a concrete entry and a
concrete one-track dataset. -/
theorem checksumNone_presence_only_witness :
    validateEntry id [("/d/a.wav", "bytes")] ("/d/a.wav", none) = ⟨[], [], []⟩
    ∧ ∃ ds₂, datasetValidate id [("/d/a.wav", "bytes")]
        (loadedDS "/d" [("t1", [("audio", ("a.wav", none))])]
          (fun _ => some [("t1", .fields [])]))
      = .ok (⟨[], [], []⟩, ds₂) := by
  constructor
  · exact checksumNone_presence_only.1 id [("/d/a.wav", "bytes")]
      "/d/a.wav" "bytes" rfl
  · exact checksumNone_presence_only.2 id [("/d/a.wav", "bytes")]
      "/d" "t1" "audio" "a.wav" (fun _ => some [("t1", .fields [])])
      [("t1", .fields [])] "bytes" rfl (by decide) (by decide)

/-- C10 counterexample to the claim as stated: when the per-dataset
metadata happens to contain a track entry literally keyed
`"data_home"`, the assignment `metadata_index['data_home'] = data_home`
(dataset.py:54) *overwrites* that entry instead of adding a key, and
the resulting key set is exactly the per-track key set. -/
theorem metadata_data_home_collision :
    metadataKeysAfter
        (freshDS "/d" [] (fun _ => some [("data_home", .fields [])]))
      = some ["data_home"]
    ∧ some ["data_home"]
      = some (([("data_home", MetaEntry.fields [])]).map Prod.fst) := by
  exact ⟨by decide, by decide⟩

/-- C10 (amended): after the metadata mapping is first computed it maps
`"data_home"` to the dataset root; whenever `"data_home"` is not itself
one of the per-track keys returned by `load_metadata` — the ordinary
case — the key set is the per-track key set extended by `"data_home"`,
hence not equal to it. -/
theorem metadata_contains_data_home (ds : DatasetState) (lm : Metadata)
    (hc : ds.metadataCache = none)
    (hlm : ds.loadMeta ds.dataHome = some lm) :
    ∃ ds₁, metadataAccess ds
        = .ok (assocSet lm "data_home" (.home ds.dataHome), ds₁, 1)
      ∧ assocLookup "data_home" (assocSet lm "data_home" (.home ds.dataHome))
        = some (.home ds.dataHome)
      ∧ ("data_home" ∉ lm.map Prod.fst →
          (assocSet lm "data_home" (.home ds.dataHome)).map Prod.fst
            = lm.map Prod.fst ++ ["data_home"]
          ∧ (assocSet lm "data_home" (.home ds.dataHome)).map Prod.fst
            ≠ lm.map Prod.fst) := by
  refine ⟨_, metadataAccess_fresh hc hlm,
    assocLookup_assocSet_self lm "data_home" (.home ds.dataHome), ?_⟩
  intro hnm
  have hset := @assocSet_of_not_mem MetaEntry lm "data_home"
    (MetaEntry.home ds.dataHome) hnm
  constructor
  · rw [hset]
    simp
  · rw [hset]
    intro hcontra
    have hlen := congrArg List.length hcontra
    simp at hlen

/-- C10 witness: the amended statement at a concrete dataset whose
metadata has one ordinary track entry. -/
theorem metadata_contains_data_home_witness :
    ∃ ds₁, metadataAccess exDS
        = .ok (assocSet [("t1", MetaEntry.fields [])] "data_home"
            (MetaEntry.home exDS.dataHome), ds₁, 1)
      ∧ assocLookup "data_home"
          (assocSet [("t1", MetaEntry.fields [])] "data_home"
            (MetaEntry.home exDS.dataHome))
        = some (MetaEntry.home exDS.dataHome)
      ∧ ("data_home" ∉ ([("t1", MetaEntry.fields [])]).map Prod.fst →
          (assocSet [("t1", MetaEntry.fields [])] "data_home"
              (MetaEntry.home exDS.dataHome)).map Prod.fst
            = ([("t1", MetaEntry.fields [])]).map Prod.fst ++ ["data_home"]
          ∧ (assocSet [("t1", MetaEntry.fields [])] "data_home"
              (MetaEntry.home exDS.dataHome)).map Prod.fst
            ≠ ([("t1", MetaEntry.fields [])]).map Prod.fst) := by
  exact metadata_contains_data_home exDS [("t1", MetaEntry.fields [])] rfl rfl

theorem cpRun_cached {σ α : Type} (loader : σ → α) :
    ∀ (es : List σ) (v : α),
      cpRun loader es (some v) = (List.replicate es.length v, some v, 0) := by
  intro es
  induction es with
  | nil => intro v; rfl
  | cons e rest ih =>
      intro v
      simp only [cpRun, cpAccess, ih, List.length_cons, List.replicate_succ]

/-- C6: a cached derived property is computed at most once.  First
conjunct: over any non-empty access sequence starting from an empty
cache, the loader runs exactly once (on the first access) and every
access returns the value computed from the first access's world view,
even though the world `es` may change afterwards.  The remaining
conjuncts: the two `utils.cached_property` instances of `dataset.py` —
`Dataset.metadata` and `Dataset.index` — return the memoized value with
zero loader invocations once their cache is populated. -/
theorem cached_property_computed_once :
    (∀ {σ α : Type} (loader : σ → α) (e : σ) (es : List σ),
        cpRun loader (e :: es) none
          = (List.replicate (es.length + 1) (loader e), some (loader e), 1))
    ∧ (∀ (ds : DatasetState) (m : Metadata), ds.metadataCache = some m →
        metadataAccess ds = .ok (m, ds, 0))
    ∧ (∀ (ds : DatasetState) (idx : List (String × List (String × Nat))),
        ds.indexCache = some idx → indexAccess ds = (idx, ds, 0)) := by
  refine ⟨?_, fun ds m hm => metadataAccess_cached hm,
    fun ds idx hi => indexAccess_cached hi⟩
  intro σ α loader e es
  simp only [cpRun, cpAccess, cpRun_cached, List.replicate_succ]

/-- C6 witness: three accesses under a changing world — one loader run,
all three results equal to the first computation; and the dataset-level
caches returned memoized with zero reads. -/
theorem cached_property_computed_once_witness :
    cpRun (fun (n : Nat) => n * 2) [1, 5, 9] none = ([2, 2, 2], some 2, 1)
    ∧ metadataAccess
        { exDS with metadataCache := some [("t1", MetaEntry.fields [])] }
      = .ok ([("t1", MetaEntry.fields [])],
          { exDS with metadataCache := some [("t1", MetaEntry.fields [])] },
          0) := by
  constructor
  · rw [cached_property_computed_once.1 (fun (n : Nat) => n * 2) 1 [5, 9]]
    decide
  · exact cached_property_computed_once.2.1 _ _ rfl
